import Mathlib

/-!
# Bounded channel, worker pool and reference-counted handle

A shallow embedding of three classes of the repository:

* `ProducerConsumer` (src/producerConsumer.cpp): a bounded FIFO buffer guarded by one
  mutex, with two condition variables and a stop flag;
* `ThreadPool` (src/threadpool.cpp): a fixed set of workers sharing a task queue;
* `Shared_ptr` (src/my_smart_ptr.cpp): a hand-written reference-counted handle.

Every member function that runs under the mutex is a pure function on the state of the
object.  A call whose wait predicate is false does not change the state and is reported
as `blocked`: the calling thread would sleep on the condition variable.
-/

namespace ProducerConsumer

/-- State of a `ProducerConsumer` object: the `queue<int> buffer` (front of the queue is
the head of the list), the `capacity` field and the `stop_flag`. -/
structure State where
  buffer : List Int
  capacity : Nat
  stop_flag : Bool
  deriving DecidableEq, Repr

/-- A freshly constructed object: empty buffer, `capacity = 30`, `stop_flag{false}`. -/
def init : State :=
  { buffer := [], capacity := 30, stop_flag := false }

/-- The member `get_capacity`. -/
def get_capacity (pc : State) : Nat := pc.capacity

/-- The member `get_stop_flag`. -/
def get_stop_flag (pc : State) : Bool := pc.stop_flag

/-- What a call of `produce` does: it sleeps on `cond_producer`, it returns at
`if(stop_flag.load()) return;`, or it pushes the datum. -/
inductive ProduceOutcome where
  | blocked
  | closed
  | produced
  deriving DecidableEq, Repr

/-- What a call of `consume` does: it sleeps on `cond_consumer`, it returns at
`if(stop_flag.load()) return;`, or it pops the front datum (which it prints). -/
inductive ConsumeOutcome where
  | blocked
  | closed
  | consumed (data : Int)
  deriving DecidableEq, Repr

/-- The wait predicate of `produce`: `buffer.size() < capacity || stop_flag.load()`. -/
def produce_pred (pc : State) : Bool :=
  decide (pc.buffer.length < pc.capacity) || pc.stop_flag

/-- The wait predicate of `consume`: `!buffer.empty() || stop_flag.load()`. -/
def consume_pred (pc : State) : Bool :=
  !pc.buffer.isEmpty || pc.stop_flag

/-- The member `produce(data)`, taken atomically. -/
def produce (pc : State) (data : Int) : State × ProduceOutcome :=
  if produce_pred pc then
    if pc.stop_flag then (pc, ProduceOutcome.closed)
    else ({ pc with buffer := pc.buffer ++ [data] }, ProduceOutcome.produced)
  else (pc, ProduceOutcome.blocked)

/-- The member `consume()`, taken atomically. -/
def consume (pc : State) : State × ConsumeOutcome :=
  if consume_pred pc then
    if pc.stop_flag then (pc, ConsumeOutcome.closed)
    else
      match pc.buffer with
      | [] => (pc, ConsumeOutcome.blocked)
      | data :: rest => ({ pc with buffer := rest }, ConsumeOutcome.consumed data)
  else (pc, ConsumeOutcome.blocked)

/-- The member `stop()`: store `true` in the flag and swap the buffer with an empty
queue. -/
def stop (pc : State) : State :=
  { pc with stop_flag := true, buffer := [] }

/-- One call on the channel. -/
inductive Op where
  | produce (data : Int)
  | consume
  | stop
  deriving DecidableEq, Repr

/-- The state after one call. -/
def step (pc : State) : Op → State
  | Op.produce data => (produce pc data).1
  | Op.consume => (consume pc).1
  | Op.stop => stop pc

/-- The state after a sequence of calls. -/
def run (pc : State) (ops : List Op) : State :=
  ops.foldl step pc

/-- The data accepted by `produce` (outcome `produced`) along a sequence of calls, in
call order. -/
def accepted : State → List Op → List Int
  | _, [] => []
  | pc, Op.produce data :: ops =>
      match (produce pc data).2 with
      | ProduceOutcome.produced => data :: accepted (produce pc data).1 ops
      | _ => accepted (produce pc data).1 ops
  | pc, op :: ops => accepted (step pc op) ops

/-- The data handed out by `consume` (outcome `consumed`) along a sequence of calls, in
call order. -/
def delivered : State → List Op → List Int
  | _, [] => []
  | pc, Op.consume :: ops =>
      match (consume pc).2 with
      | ConsumeOutcome.consumed data => data :: delivered (consume pc).1 ops
      | _ => delivered (consume pc).1 ops
  | pc, op :: ops => delivered (step pc op) ops

/-- The outcomes of a sequence of `produce` calls, one per datum. -/
def produce_all : State → List Int → State × List ProduceOutcome
  | pc, [] => (pc, [])
  | pc, data :: rest =>
      let r := produce_all (produce pc data).1 rest
      (r.1, (produce pc data).2 :: r.2)

end ProducerConsumer

namespace ThreadPool

/-- An element of `tasks_queue`: the result of `std::bind(f, args...)`, a callable
(named by a number) together with its bound arguments. -/
structure Task where
  f : Nat
  args : List Int
  deriving DecidableEq, Repr

/-- Where a worker thread stands in `ThreadPool::worker`: at the `wait` of the loop,
between `lock.unlock()` and the return of `task()` with the task it moved out of the
queue, or after `return`. -/
inductive Worker where
  | waiting
  | running (task : Task)
  | exited
  deriving DecidableEq, Repr

/-- State of a `ThreadPool` object: the workers of `threadsPool`, the `tasks_queue`
(front of the queue is the head of the list) and the `stop_flag`.  The field `invoked`
is a trace: it records every call `task()` with the index of the worker that made it. -/
structure State where
  threadsPool : List Worker
  tasks_queue : List Task
  stop_flag : Bool
  invoked : List (Nat × Task)
  deriving DecidableEq, Repr

/-- The largest value of `size_t`, the type of the parameter `thread_num` (64 bits). -/
def size_max : Nat := 2 ^ 64 - 1

/-- The loop of the constructor, `threadsPool.emplace_back(&ThreadPool::worker, this)`
for `i` from `0` up to `thread_num`.  Whether the system can start a thread is not
decided by the program: `can_start i` tells whether the `std::thread` of iteration `i`
can be started.  When it can, the new thread stands at the top of `worker`; when it
cannot, `emplace_back` throws `std::system_error` and the loop is left with no list. -/
def spawn (can_start : Nat → Bool) (thread_num : Nat) : Option (List Worker) :=
  (List.range thread_num).foldl
    (fun pool i => pool.bind (fun workers =>
      if can_start i then some (workers ++ [Worker.waiting]) else none))
    (some [])

/-- The constructor `ThreadPool(size_t thread_num)`.  The result is `none` when the
constructor throws and no object exists: that happens when a thread cannot be started,
and nowhere else (the threads started before it are then destroyed while joinable, so
the program ends); the value of `thread_num` is not tested. -/
def construct (can_start : Nat → Bool) (thread_num : Nat) : Option State :=
  (spawn can_start thread_num).map (fun workers =>
    { threadsPool := workers, tasks_queue := [], stop_flag := false, invoked := [] })

/-- What a call of `add_task` does: it writes "function is null" to `cerr` and returns,
or it emplaces the bound task. -/
inductive AddTaskOutcome where
  | rejected
  | enqueued
  deriving DecidableEq, Repr

/-- The member `add_task(f, args...)`.  The callable is `none` when `!f` holds. -/
def add_task (pool : State) (f : Option Nat) (args : List Int) : State × AddTaskOutcome :=
  match f with
  | none => (pool, AddTaskOutcome.rejected)
  | some g =>
      ({ pool with tasks_queue := pool.tasks_queue ++ [{ f := g, args := args }] },
        AddTaskOutcome.enqueued)

/-- The member `stop()`: store `true` in the flag and swap the queue with an empty
one. -/
def stop (pool : State) : State :=
  { pool with stop_flag := true, tasks_queue := [] }

/-- The first statement of the destructor, `stop_flag.store(true)`; the queue is left as
it is and the workers are then joined. -/
def destructor_store (pool : State) : State :=
  { pool with stop_flag := true }

/-- The wait predicate of `worker`: `!tasks_queue.empty() || stop_flag.load()`. -/
def worker_pred (pool : State) : Bool :=
  !pool.tasks_queue.isEmpty || pool.stop_flag

/-- What one pass through the body of `while(true)` does. -/
inductive IterationOutcome where
  | blocked
  | exited
  | ran (task : Task)
  deriving DecidableEq, Repr

/-- One pass of worker `i` through the body of `while(true)` in `worker`, started at the
`wait`: sleep, or `return` when the flag is set, or move the front task out of the
queue, pop it and call it. -/
def worker_iteration (pool : State) (i : Nat) : State × IterationOutcome :=
  if worker_pred pool then
    if pool.stop_flag then
      ({ pool with threadsPool := pool.threadsPool.set i Worker.exited },
        IterationOutcome.exited)
    else
      match pool.tasks_queue with
      | [] => (pool, IterationOutcome.blocked)
      | task :: rest =>
          ({ pool with tasks_queue := rest, invoked := pool.invoked ++ [(i, task)] },
            IterationOutcome.ran task)
  else (pool, IterationOutcome.blocked)

/-- One atomic step of worker `i`.  A waiting worker runs the critical section of
`worker` (from the `wait` to `lock.unlock()`); a running worker calls `task()` and goes
back to the `wait`; an exited worker does nothing. -/
def worker_step (pool : State) (i : Nat) : State :=
  match pool.threadsPool[i]? with
  | none => pool
  | some Worker.exited => pool
  | some (Worker.running task) =>
      { pool with threadsPool := pool.threadsPool.set i Worker.waiting,
                  invoked := pool.invoked ++ [(i, task)] }
  | some Worker.waiting =>
      if worker_pred pool then
        if pool.stop_flag then
          { pool with threadsPool := pool.threadsPool.set i Worker.exited }
        else
          match pool.tasks_queue with
          | [] => pool
          | task :: rest =>
              { pool with threadsPool := pool.threadsPool.set i (Worker.running task),
                          tasks_queue := rest }
      else pool

/-- One atomic event on the pool. -/
inductive Event where
  | worker (i : Nat)
  | add_task (f : Option Nat) (args : List Int)
  | stop
  deriving DecidableEq, Repr

/-- The state after one event. -/
def step (pool : State) : Event → State
  | Event.worker i => worker_step pool i
  | Event.add_task f args => (add_task pool f args).1
  | Event.stop => stop pool

/-- The state after a sequence of events. -/
def run (pool : State) (evs : List Event) : State :=
  evs.foldl step pool

end ThreadPool

namespace Shared_ptr

/-- The two fields of a `Shared_ptr<T>` object.  A raw pointer is an address, `0` is
`nullptr`; `ref_count` is the address of the counter, `none` is `nullptr`. -/
structure Handle where
  ptr : Nat
  ref_count : Option Nat
  deriving DecidableEq, Repr

/-- The free store: the counters allocated by `new int(1)` (the address of a counter is
its index, a deleted counter is `none`) and the resources on which `delete ptr` ran.
A counter is a C++ `int`; it is an unbounded integer here, which is exact as long as
fewer than `2^31` objects share one counter. -/
structure Heap where
  cells : List (Option Int)
  deleted : List Nat
  deriving DecidableEq, Repr

/-- The helper `add_ref`: `if(ref_count) (*ref_count)++`.  The result is `none` when the
counter has been deleted. -/
def add_ref (h : Handle) (heap : Heap) : Option Heap :=
  match h.ref_count with
  | none => some heap
  | some a =>
      match heap.cells[a]? with
      | some (some n) => some { heap with cells := heap.cells.set a (some (n + 1)) }
      | _ => none

/-- The helper `release_ref`: decrement the counter and, when it reaches `0`, delete the
resource and the counter and null both fields.  The result is `none` when the counter
has been deleted. -/
def release_ref (h : Handle) (heap : Heap) : Option (Handle × Heap) :=
  match h.ref_count with
  | none => some (h, heap)
  | some a =>
      match heap.cells[a]? with
      | some (some n) =>
          if n - 1 = 0 then
            some ({ ptr := 0, ref_count := none },
                  { cells := heap.cells.set a none,
                    deleted := if h.ptr = 0 then heap.deleted else heap.deleted ++ [h.ptr] })
          else some (h, { heap with cells := heap.cells.set a (some (n - 1)) })
      | _ => none

/-- The constructor `Shared_ptr(T* p)`: `ptr(p), ref_count(p ? new int(1) : nullptr)`. -/
def ctor (p : Nat) (heap : Heap) : Handle × Heap :=
  if p = 0 then ({ ptr := p, ref_count := none }, heap)
  else ({ ptr := p, ref_count := some heap.cells.length },
        { heap with cells := heap.cells ++ [some 1] })

/-- The member `use_count`: `ref_count ? *ref_count : 0`. -/
def use_count (h : Handle) (heap : Heap) : Option Int :=
  match h.ref_count with
  | none => some 0
  | some a =>
      match heap.cells[a]? with
      | some (some n) => some n
      | _ => none

/-- The member `unique`: `use_count() == 1`. -/
def unique (h : Handle) (heap : Heap) : Option Bool :=
  (use_count h heap).map (fun n => decide (n = 1))

/-- A program state: the `Shared_ptr` objects in scope, by variable number (`none` is a
variable that is not constructed or already destroyed), and the free store. -/
structure Mem where
  vars : List (Option Handle)
  heap : Heap
  deriving DecidableEq, Repr

/-- The empty program state. -/
def Mem.init : Mem :=
  { vars := [], heap := { cells := [], deleted := [] } }

/-- The object of variable `v`, when it is alive. -/
def Mem.var (m : Mem) (v : Nat) : Option Handle :=
  m.vars[v]?.join

/-- Store `h` at position `v` of a list of variables, extending the list with variables
that are not alive when it is too short. -/
def putVar : List (Option Handle) → Nat → Option Handle → List (Option Handle)
  | [], 0, h => [h]
  | [], v + 1, h => none :: putVar [] v h
  | _ :: vars, 0, h => h :: vars
  | x :: vars, v + 1, h => x :: putVar vars v h

/-- Store an object in variable `v` and replace the free store. -/
def Mem.put (m : Mem) (v : Nat) (h : Option Handle) (heap : Heap) : Mem :=
  { vars := putVar m.vars v h, heap := heap }

/-- One statement on `Shared_ptr` variables. -/
inductive Op where
  | ctor (v p : Nat)
  | copy_ctor (v other : Nat)
  | copy_assign (v other : Nat)
  | move_ctor (v other : Nat)
  | move_assign (v other : Nat)
  | reset (v p : Nat)
  | release (v : Nat)
  | dtor (v : Nat)
  deriving DecidableEq, Repr

/-- The effect of one statement.  The result is `none` when the statement is not
defined: it names a variable that is not alive, constructs one that is, or reads a
deleted counter. -/
def exec (m : Mem) : Op → Option Mem
  | Op.ctor v p =>
      match m.var v with
      | some _ => none
      | none => some (m.put v (some (ctor p m.heap).1) (ctor p m.heap).2)
  | Op.copy_ctor v other =>
      match m.var v, m.var other with
      | none, some o =>
          (add_ref { ptr := o.ptr, ref_count := o.ref_count } m.heap).map
            (fun heap => m.put v (some { ptr := o.ptr, ref_count := o.ref_count }) heap)
      | _, _ => none
  | Op.copy_assign v other =>
      match m.var v, m.var other with
      | some t, some o =>
          if v = other then some m
          else
            (release_ref t m.heap).bind (fun r =>
              (add_ref { ptr := o.ptr, ref_count := o.ref_count } r.2).map
                (fun heap => m.put v (some { ptr := o.ptr, ref_count := o.ref_count }) heap))
      | _, _ => none
  | Op.move_ctor v other =>
      match m.var v, m.var other with
      | none, some o =>
          some ((m.put v (some { ptr := o.ptr, ref_count := o.ref_count }) m.heap).put other
            (some { ptr := 0, ref_count := none }) m.heap)
      | _, _ => none
  | Op.move_assign v other =>
      match m.var v, m.var other with
      | some t, some o =>
          if v = other then some m
          else
            (release_ref t m.heap).map (fun r =>
              (m.put v (some { ptr := o.ptr, ref_count := o.ref_count }) r.2).put other
                (some { ptr := 0, ref_count := none }) r.2)
      | _, _ => none
  | Op.reset v p =>
      match m.var v with
      | some t =>
          if p = t.ptr then some m
          else
            (release_ref t m.heap).map (fun r =>
              m.put v (some (ctor p r.2).1) (ctor p r.2).2)
      | none => none
  | Op.release v =>
      match m.var v with
      | some _ => some (m.put v (some { ptr := 0, ref_count := none }) m.heap)
      | none => none
  | Op.dtor v =>
      match m.var v with
      | some t => (release_ref t m.heap).map (fun r => m.put v none r.2)
      | none => none

/-- The effect of a sequence of statements. -/
def execAll : Mem → List Op → Option Mem
  | m, [] => some m
  | m, op :: ops => (exec m op).bind (fun m1 => execAll m1 ops)

/-- The value of `v.use_count()` in a program state. -/
def Mem.use_count (m : Mem) (v : Nat) : Option Int :=
  (m.var v).bind (fun h => Shared_ptr.use_count h m.heap)

/-- The number of live objects whose `ptr` is the resource `p`. -/
def Mem.sharers (m : Mem) (p : Nat) : Nat :=
  (m.vars.filter (fun h => decide (h.map Handle.ptr = some p))).length

/-- The number of objects in a list of variables whose `ref_count` is the counter at
address `a`. -/
def holdersOf (vars : List (Option Handle)) (a : Nat) : Nat :=
  (vars.filter (fun h => decide (h.bind Handle.ref_count = some a))).length

/-- The number of live objects whose `ref_count` is the counter at address `a`. -/
def Mem.holders (m : Mem) (a : Nat) : Nat :=
  holdersOf m.vars a

/-- Whether variable `v` holds a live object. -/
def Mem.live (m : Mem) (v : Nat) : Bool :=
  (m.var v).isSome

/-- Whether the raw pointer `p` may be handed to a new owner: it is null, or no live
object manages it. -/
def Mem.fresh (m : Mem) (p : Nat) : Bool :=
  decide (p = 0) || decide (m.sharers p = 0)

/-- The discipline of a client program for one statement: constructors name a variable
that is not alive, every other statement names live variables, a raw pointer given to a
constructor or to `reset` is fresh (or, for `reset`, the pointer the object has), and
`release` is called on an object that is empty or the only owner, as in the demo. -/
def admissible (m : Mem) : Op → Bool
  | Op.ctor v p => !m.live v && m.fresh p
  | Op.copy_ctor v other => !m.live v && m.live other
  | Op.copy_assign v other => m.live v && m.live other
  | Op.move_ctor v other => !m.live v && m.live other
  | Op.move_assign v other => m.live v && m.live other
  | Op.reset v p => m.live v && (m.fresh p || decide ((m.var v).map Handle.ptr = some p))
  | Op.release v =>
      m.live v && (decide (m.use_count v = some 0) || decide (m.use_count v = some 1))
  | Op.dtor v => m.live v

/-- The discipline along a sequence of statements. -/
def admissibleAll : Mem → List Op → Bool
  | _, [] => true
  | m, op :: ops =>
      admissible m op &&
        match exec m op with
        | some m1 => admissibleAll m1 ops
        | none => false

/-- First half of the representation invariant: a live object has a counter exactly
when its pointer is not null, and two live objects have the same pointer exactly when
they have the same counter. -/
def Mem.paired (m : Mem) : Prop :=
  (∀ h : Handle, some h ∈ m.vars → (h.ptr = 0 ↔ h.ref_count = none)) ∧
    (∀ h k : Handle, some h ∈ m.vars → some k ∈ m.vars →
      (h.ptr = k.ptr ↔ h.ref_count = k.ref_count))

/-- Second half of the representation invariant: every counter that a live object points
to is allocated and holds the number of live objects that point to it. -/
def Mem.counted (m : Mem) : Prop :=
  ∀ a : Nat, 0 < m.holders a → m.heap.cells[a]? = some (some (m.holders a : Int))

/-- The representation invariant of a program state. -/
def Mem.consistent (m : Mem) : Prop :=
  m.paired ∧ m.counted

end Shared_ptr

namespace ProducerConsumer

/-! ## The bounded channel -/

theorem produce_capacity (pc : State) (data : Int) :
    (produce pc data).1.capacity = pc.capacity := by
  unfold produce
  split_ifs <;> rfl

theorem consume_capacity (pc : State) : (consume pc).1.capacity = pc.capacity := by
  unfold consume
  split_ifs
  · rfl
  · split <;> rfl
  · rfl

theorem step_capacity (pc : State) (op : Op) : (step pc op).capacity = pc.capacity := by
  cases op
  · exact produce_capacity pc _
  · exact consume_capacity pc
  · rfl

theorem produce_bounded (pc : State) (data : Int)
    (h : pc.buffer.length ≤ pc.capacity) :
    (produce pc data).1.buffer.length ≤ pc.capacity := by
  unfold produce produce_pred
  by_cases hs : pc.stop_flag = true
  · simp [hs, h]
  · by_cases hlt : pc.buffer.length < pc.capacity
    · simp [hs, hlt]
      omega
    · simp [hs, hlt, h]

theorem consume_length_le (pc : State) :
    (consume pc).1.buffer.length ≤ pc.buffer.length := by
  unfold consume
  split_ifs
  · exact le_rfl
  · split
    · exact le_rfl
    · rename_i data rest hb
      simp [hb]
  · exact le_rfl

theorem step_bounded (pc : State) (op : Op) (h : pc.buffer.length ≤ pc.capacity) :
    (step pc op).buffer.length ≤ (step pc op).capacity := by
  rw [step_capacity]
  cases op
  · exact produce_bounded pc _ h
  · exact le_trans (consume_length_le pc) h
  · simp [step, stop]

theorem run_bounded (ops : List Op) :
    ∀ pc : State, pc.buffer.length ≤ pc.capacity →
      (run pc ops).buffer.length ≤ (run pc ops).capacity ∧
        (run pc ops).capacity = pc.capacity := by
  induction ops with
  | nil => intro pc h; exact ⟨h, rfl⟩
  | cons op ops ih =>
      intro pc h
      have h1 := ih (step pc op) (step_bounded pc op h)
      simp only [run, List.foldl_cons] at h1 ⊢
      exact ⟨h1.1, by rw [h1.2, step_capacity]⟩

/-- C1: after every call of a finite sequence of `produce`, `consume` and `stop` calls
on a fresh channel (every prefix `ops.take k` of the sequence), the buffer size is at
most the capacity, and the capacity is 30. -/
theorem capacity_invariant (ops : List Op) (k : Nat) :
    0 ≤ (run init (ops.take k)).buffer.length ∧
      (run init (ops.take k)).buffer.length ≤ (run init (ops.take k)).capacity ∧
      (run init (ops.take k)).capacity = 30 := by
  have h := run_bounded (ops.take k) init (by simp [init])
  exact ⟨Nat.zero_le _, h.1, h.2⟩

theorem produce_open (pc : State) (data : Int) (h : pc.stop_flag = false) :
    (produce pc data).1.stop_flag = false := by
  unfold produce
  split_ifs <;> simp [h]

theorem consume_open (pc : State) (h : pc.stop_flag = false) :
    (consume pc).1.stop_flag = false := by
  unfold consume
  split_ifs
  · exact h
  · split <;> simp [h]
  · exact h

theorem fifo_aux (ops : List Op) :
    ∀ pc : State, pc.stop_flag = false → Op.stop ∉ ops →
      delivered pc ops ++ (run pc ops).buffer = pc.buffer ++ accepted pc ops := by
  induction ops with
  | nil => intro pc _ _; simp [delivered, accepted, run]
  | cons op ops ih =>
      intro pc hopen hops
      have hops1 : Op.stop ∉ ops := fun hm => hops (List.mem_cons_of_mem _ hm)
      cases op with
      | stop => exact absurd (List.mem_cons_self _ _) hops
      | produce data =>
          have h1 := ih (produce pc data).1 (produce_open pc data hopen) hops1
          simp only [run, List.foldl_cons, step, delivered, accepted] at h1 ⊢
          rw [h1]
          unfold produce produce_pred
          by_cases hlt : pc.buffer.length < pc.capacity
          · simp [hopen, hlt]
          · simp [hopen, hlt]
      | consume =>
          have h1 := ih (consume pc).1 (consume_open pc hopen) hops1
          simp only [run, List.foldl_cons, step, delivered, accepted] at h1 ⊢
          cases hb : pc.buffer with
          | nil =>
              have hc : consume pc = (pc, ConsumeOutcome.blocked) := by
                simp [consume, consume_pred, hb, hopen]
              rw [hc] at h1 ⊢
              simpa [hb] using h1
          | cons data rest =>
              have hc : consume pc = ({ pc with buffer := rest }, ConsumeOutcome.consumed data) := by
                simp [consume, consume_pred, hb, hopen]
              rw [hc] at h1 ⊢
              simpa using h1

/-- C2: along every sequence of `produce` and `consume` calls on a channel that is not
stopped, the data handed out by `consume` followed by the data left in the buffer are
exactly the data already in the buffer followed by the data accepted by `produce`, in
order; the data handed out are a prefix of that sequence. -/
theorem fifo_delivery (pc : State) (ops : List Op) (hopen : pc.stop_flag = false)
    (hops : Op.stop ∉ ops) :
    delivered pc ops ++ (run pc ops).buffer = pc.buffer ++ accepted pc ops ∧
      delivered pc ops <+: pc.buffer ++ accepted pc ops :=
  ⟨fifo_aux ops pc hopen hops, ⟨(run pc ops).buffer, fifo_aux ops pc hopen hops⟩⟩

/-- Witness of C2 on a fresh channel: three values go in, two come out in the same
order, the third stays in the buffer. -/
theorem fifo_delivery_witness :
    init.stop_flag = false ∧
      Op.stop ∉ [Op.produce 7, Op.produce 8, Op.consume, Op.produce 9, Op.consume] ∧
      (delivered init [Op.produce 7, Op.produce 8, Op.consume, Op.produce 9, Op.consume] ++
          (run init [Op.produce 7, Op.produce 8, Op.consume, Op.produce 9, Op.consume]).buffer =
        init.buffer ++
          accepted init [Op.produce 7, Op.produce 8, Op.consume, Op.produce 9, Op.consume] ∧
        delivered init [Op.produce 7, Op.produce 8, Op.consume, Op.produce 9, Op.consume] <+:
          init.buffer ++
            accepted init [Op.produce 7, Op.produce 8, Op.consume, Op.produce 9, Op.consume]) :=
  ⟨rfl, by decide, fifo_delivery init _ rfl (by decide)⟩

theorem step_closed (pc : State) (op : Op) (h : pc.stop_flag = true ∧ pc.buffer = []) :
    (step pc op).stop_flag = true ∧ (step pc op).buffer = [] := by
  obtain ⟨hs, hb⟩ := h
  cases op
  · simp [step, produce, produce_pred, hs, hb]
  · simp [step, consume, consume_pred, hs, hb]
  · simp [step, stop]

theorem run_closed (ops : List Op) :
    ∀ pc : State, pc.stop_flag = true ∧ pc.buffer = [] →
      (run pc ops).stop_flag = true ∧ (run pc ops).buffer = [] := by
  induction ops with
  | nil => intro pc h; exact h
  | cons op ops ih =>
      intro pc h
      simpa [run] using ih (step pc op) (step_closed pc op h)

/-- C3: in every state reached after `stop()` (from any state, followed by any calls),
the flag is set and the buffer is empty, both wait predicates hold, `produce` returns
at the flag test with the state unchanged, and so does `consume`. -/
theorem closed_channel (pc : State) (ops : List Op) (data : Int) :
    (run (stop pc) ops).stop_flag = true ∧
      (run (stop pc) ops).buffer = [] ∧
      produce_pred (run (stop pc) ops) = true ∧
      consume_pred (run (stop pc) ops) = true ∧
      produce (run (stop pc) ops) data = (run (stop pc) ops, ProduceOutcome.closed) ∧
      consume (run (stop pc) ops) = (run (stop pc) ops, ConsumeOutcome.closed) := by
  obtain ⟨hs, hb⟩ := run_closed ops (stop pc) ⟨rfl, rfl⟩
  refine ⟨hs, hb, ?_, ?_, ?_, ?_⟩
  · simp [produce_pred, hs]
  · simp [consume_pred, hs]
  · simp [produce, produce_pred, hs]
  · simp [consume, consume_pred, hs]

theorem produce_all_fits (xs : List Int) :
    ∀ pc : State, pc.stop_flag = false → pc.buffer.length + xs.length ≤ pc.capacity →
      produce_all pc xs =
        ({ pc with buffer := pc.buffer ++ xs }, List.replicate xs.length ProduceOutcome.produced) := by
  induction xs with
  | nil => intro pc _ _; simp [produce_all]
  | cons x xs ih =>
      intro pc hopen hlen
      simp only [List.length_cons] at hlen
      have hlt : pc.buffer.length < pc.capacity := by omega
      have hp : produce pc x = ({ pc with buffer := pc.buffer ++ [x] }, ProduceOutcome.produced) := by
        simp [produce, produce_pred, hopen, hlt]
      have h1 := ih { pc with buffer := pc.buffer ++ [x] } hopen
        (by simp only [List.length_append, List.length_singleton]; omega)
      simp only [produce_all, hp, h1]
      simp [List.replicate_succ]

/-- C4: on an open channel `produce` can proceed exactly when the size is below the
capacity; then it appends at the tail, and at size = capacity it sleeps.  From an empty
open channel of capacity `c > 0` the first `c` calls of `produce` all proceed, one more
sleeps, and after one `consume` (which removes the oldest value) it proceeds. -/
theorem backpressure (pc : State) (xs : List Int) (y : Int)
    (hopen : pc.stop_flag = false) (hempty : pc.buffer = []) (hc : 0 < pc.capacity)
    (hxs : xs.length = pc.capacity) :
    (∀ s : State, s.stop_flag = false →
        (produce_pred s = true ↔ s.buffer.length < s.capacity)) ∧
      (∀ (s : State) (x : Int), s.stop_flag = false → s.buffer.length < s.capacity →
        produce s x = ({ s with buffer := s.buffer ++ [x] }, ProduceOutcome.produced)) ∧
      (∀ (s : State) (x : Int), s.stop_flag = false → s.buffer.length = s.capacity →
        produce_pred s = false ∧ produce s x = (s, ProduceOutcome.blocked)) ∧
      produce_all pc xs =
        ({ pc with buffer := xs }, List.replicate pc.capacity ProduceOutcome.produced) ∧
      produce (produce_all pc xs).1 y = ((produce_all pc xs).1, ProduceOutcome.blocked) ∧
      ∃ x rest, xs = x :: rest ∧
        consume (produce_all pc xs).1 = ({ pc with buffer := rest }, ConsumeOutcome.consumed x) ∧
        produce (consume (produce_all pc xs).1).1 y =
          ({ pc with buffer := rest ++ [y] }, ProduceOutcome.produced) := by
  have hall : produce_all pc xs =
      ({ pc with buffer := xs }, List.replicate pc.capacity ProduceOutcome.produced) := by
    have h := produce_all_fits xs pc hopen (by simp [hempty, hxs])
    rw [h, hempty, hxs]
    simp
  refine ⟨?_, ?_, ?_, hall, ?_, ?_⟩
  · intro s hs
    simp [produce_pred, hs]
  · intro s x hs hlt
    simp [produce, produce_pred, hs, hlt]
  · intro s x hs heq
    simp [produce, produce_pred, hs, heq]
  · rw [hall]
    simp [produce, produce_pred, hopen, hxs]
  · rw [hall]
    cases xs with
    | nil => simp at hxs; omega
    | cons x rest =>
        refine ⟨x, rest, rfl, ?_, ?_⟩
        · simp [consume, consume_pred, hopen]
        · simp only [List.length_cons] at hxs
          simp [consume, consume_pred, produce, produce_pred, hopen, ← hxs]

/-- Witness of C4: capacity 2, `produce(1)` and `produce(2)` proceed, `produce(3)`
sleeps until one `consume`, after which it proceeds. -/
theorem backpressure_witness :
    produce_all { buffer := [], capacity := 2, stop_flag := false } [1, 2] =
        ({ buffer := [1, 2], capacity := 2, stop_flag := false },
          [ProduceOutcome.produced, ProduceOutcome.produced]) ∧
      produce (produce_all { buffer := [], capacity := 2, stop_flag := false } [1, 2]).1 3 =
        ((produce_all { buffer := [], capacity := 2, stop_flag := false } [1, 2]).1,
          ProduceOutcome.blocked) ∧
      ∃ x rest, [1, 2] = x :: rest ∧
        consume (produce_all { buffer := [], capacity := 2, stop_flag := false } [1, 2]).1 =
          ({ buffer := rest, capacity := 2, stop_flag := false }, ConsumeOutcome.consumed x) ∧
        produce
            (consume (produce_all { buffer := [], capacity := 2, stop_flag := false } [1, 2]).1).1
            3 =
          ({ buffer := rest ++ [3], capacity := 2, stop_flag := false },
            ProduceOutcome.produced) :=
  (backpressure { buffer := [], capacity := 2, stop_flag := false } [1, 2] 3
    rfl rfl (by decide) rfl).2.2.2

end ProducerConsumer

namespace ThreadPool

/-! ## The worker pool -/

/-- C5: in every pool state `add_task` with a null callable returns at the null test and
leaves the pool, hence the queue and its size, unchanged; with a callable on a running
pool it appends exactly one task at the tail of the queue. -/
theorem add_task_null_rejected (pool : State) (g : Nat) (args : List Int) :
    add_task pool none args = (pool, AddTaskOutcome.rejected) ∧
      (add_task pool none args).1.tasks_queue = pool.tasks_queue ∧
      (add_task pool none args).1.tasks_queue.length = pool.tasks_queue.length ∧
      (pool.stop_flag = false →
        add_task pool (some g) args =
          ({ pool with tasks_queue := pool.tasks_queue ++ [{ f := g, args := args }] },
            AddTaskOutcome.enqueued)) :=
  ⟨rfl, rfl, rfl, fun _ => rfl⟩

/-- Witness of C5: a running pool with one queued task. -/
theorem add_task_null_rejected_witness :
    add_task { threadsPool := [Worker.waiting], tasks_queue := [{ f := 1, args := [4] }],
               stop_flag := false, invoked := [] } (some 2) [5] =
      ({ threadsPool := [Worker.waiting],
         tasks_queue := [{ f := 1, args := [4] }, { f := 2, args := [5] }],
         stop_flag := false, invoked := [] }, AddTaskOutcome.enqueued) :=
  (add_task_null_rejected
    { threadsPool := [Worker.waiting], tasks_queue := [{ f := 1, args := [4] }],
      stop_flag := false, invoked := [] } 2 [5]).2.2.2 rfl

/-- C6, counterexample: on the pool built with one worker and then stopped, `add_task`
with a callable is not rejected and the task is in the queue afterwards. -/
theorem add_task_after_stop_counterexample :
    ∃ pool : State, construct (fun _ => true) 1 = some pool ∧
      (stop pool).stop_flag = true ∧
      (add_task (stop pool) (some 1) [5]).2 ≠ AddTaskOutcome.rejected ∧
      (add_task (stop pool) (some 1) [5]).1.tasks_queue ≠ (stop pool).tasks_queue ∧
      (add_task (stop pool) (some 1) [5]).1.tasks_queue = [{ f := 1, args := [5] }] :=
  ⟨_, rfl, rfl, by decide, by decide, rfl⟩

/-- C6, amended: on every pool whose stop flag is set, `add_task` with a callable is
accepted and appends the task at the tail of the queue, as it does on a running pool;
the flag is not changed. -/
theorem add_task_after_stop (pool : State) (g : Nat) (args : List Int)
    (hstop : pool.stop_flag = true) :
    add_task pool (some g) args =
        ({ pool with tasks_queue := pool.tasks_queue ++ [{ f := g, args := args }] },
          AddTaskOutcome.enqueued) ∧
      (add_task pool (some g) args).1.stop_flag = true :=
  ⟨rfl, hstop⟩

/-- Witness of the amended C6: the pool of one worker, stopped. -/
theorem add_task_after_stop_witness :
    (stop { threadsPool := [Worker.waiting], tasks_queue := [{ f := 3, args := [] }],
            stop_flag := false, invoked := [] }).stop_flag = true ∧
      add_task
          (stop { threadsPool := [Worker.waiting], tasks_queue := [{ f := 3, args := [] }],
                  stop_flag := false, invoked := [] }) (some 1) [5] =
        ({ threadsPool := [Worker.waiting], tasks_queue := [{ f := 1, args := [5] }],
           stop_flag := true, invoked := [] }, AddTaskOutcome.enqueued) :=
  ⟨rfl, (add_task_after_stop
    (stop { threadsPool := [Worker.waiting], tasks_queue := [{ f := 3, args := [] }],
            stop_flag := false, invoked := [] }) 1 [5] rfl).1⟩

theorem spawn_succ (can_start : Nat → Bool) (n : Nat) :
    spawn can_start (n + 1) =
      (spawn can_start n).bind (fun workers =>
        if can_start n then some (workers ++ [Worker.waiting]) else none) := by
  simp [spawn, List.range_succ, List.foldl_append]

theorem spawn_ok (can_start : Nat → Bool) (n : Nat)
    (h : ∀ i, i < n → can_start i = true) :
    spawn can_start n = some (List.replicate n Worker.waiting) := by
  induction n with
  | zero => rfl
  | succ n ih =>
      rw [spawn_succ, ih (fun i hi => h i (Nat.lt_succ_of_lt hi))]
      simp [h n (Nat.lt_succ_self n), List.replicate_succ']

theorem spawn_fail (can_start : Nat → Bool) (n : Nat)
    (h : ∃ i, i < n ∧ can_start i = false) : spawn can_start n = none := by
  induction n with
  | zero =>
      obtain ⟨i, hi, _⟩ := h
      exact absurd hi (Nat.not_lt_zero i)
  | succ n ih =>
      obtain ⟨i, hi, hc⟩ := h
      rw [spawn_succ]
      rcases Nat.lt_succ_iff_lt_or_eq.mp hi with hlt | heq
      · rw [ih ⟨i, hlt, hc⟩]
        rfl
      · subst heq
        cases spawn can_start i <;> simp [hc]

/-- C7, counterexample: the constructor called with `0` returns a pool, and that pool
has no worker; this is so whether threads can be started or not. -/
theorem construct_zero_counterexample :
    construct (fun _ => true) 0 ≠ none ∧
      construct (fun _ => true) 0 =
        some { threadsPool := [], tasks_queue := [], stop_flag := false, invoked := [] } ∧
      construct (fun _ => false) 0 =
        some { threadsPool := [], tasks_queue := [], stop_flag := false, invoked := [] } :=
  ⟨by decide, rfl, rfl⟩

/-- C7, amended: the constructor does not test `thread_num`.  With `0` it returns a pool
with no worker.  With any `thread_num` of type `size_t` whose threads can all be
started it returns a pool with exactly `thread_num` workers, all at the top of the
worker loop, an empty queue and a clear stop flag.  It returns no pool when the thread
of some iteration cannot be started, and only then. -/
theorem construct_workers (can_start : Nat → Bool) (thread_num : Nat)
    (hsize : thread_num ≤ size_max) :
    construct can_start 0 =
        some { threadsPool := [], tasks_queue := [], stop_flag := false, invoked := [] } ∧
      ((∀ i, i < thread_num → can_start i = true) →
        ∃ pool : State, construct can_start thread_num = some pool ∧
          pool.threadsPool.length = thread_num ∧
          pool.threadsPool.length ≤ size_max ∧
          (∀ w ∈ pool.threadsPool, w = Worker.waiting) ∧
          pool.tasks_queue = [] ∧ pool.stop_flag = false) ∧
      ((∃ i, i < thread_num ∧ can_start i = false) →
        construct can_start thread_num = none) ∧
      (construct can_start thread_num = none →
        ∃ i, i < thread_num ∧ can_start i = false) := by
  refine ⟨rfl, ?_, ?_, ?_⟩
  · intro h
    refine ⟨{ threadsPool := List.replicate thread_num Worker.waiting, tasks_queue := [],
              stop_flag := false, invoked := [] }, ?_, ?_, ?_, ?_, rfl, rfl⟩
    · simp [construct, spawn_ok can_start thread_num h]
    · simp
    · simpa using hsize
    · intro w hw
      exact List.eq_of_mem_replicate hw
  · intro h
    simp [construct, spawn_fail can_start thread_num h]
  · intro hnone
    by_contra hno
    have hall : ∀ i, i < thread_num → can_start i = true := by
      intro i hi
      by_contra hc
      exact hno ⟨i, hi, by simpa using hc⟩
    simp [construct, spawn_ok can_start thread_num hall] at hnone

/-- Witness of the amended C7: three workers, every thread can be started. -/
theorem construct_workers_witness :
    3 ≤ size_max ∧
      ∃ pool : State, construct (fun _ => true) 3 = some pool ∧
        pool.threadsPool.length = 3 ∧
        pool.threadsPool.length ≤ size_max ∧
        (∀ w ∈ pool.threadsPool, w = Worker.waiting) ∧
        pool.tasks_queue = [] ∧ pool.stop_flag = false :=
  ⟨by decide, (construct_workers (fun _ => true) 3 (by decide)).2.1 (fun _ _ => rfl)⟩

theorem set_running (l : List Worker) (i j : Nat) (w : Worker) (t : Task)
    (hw : ∀ t1, w ≠ Worker.running t1) (h : (l.set i w)[j]? = some (Worker.running t)) :
    l[j]? = some (Worker.running t) ∧ i ≠ j := by
  by_cases hij : i = j
  · subst hij
    by_cases hlt : i < l.length
    · rw [List.getElem?_set_self hlt] at h
      exact absurd (Option.some.inj h) (hw t)
    · rw [List.getElem?_eq_none (by simpa using hlt)] at h
      exact absurd h (by simp)
  · rw [List.getElem?_set_ne hij] at h
    exact ⟨h, hij⟩

theorem set_not_running (l : List Worker) (i j : Nat) (w : Worker)
    (hw : ∀ t1, w ≠ Worker.running t1) (h : ∀ t, l[j]? ≠ some (Worker.running t)) :
    ∀ t, (l.set i w)[j]? ≠ some (Worker.running t) :=
  fun t hs => h t (set_running l i j w t hw hs).1

theorem step_after_stop (pool s : State) (ev : Event)
    (h : s.stop_flag = true ∧
      (∀ (i : Nat) (t : Task), s.threadsPool[i]? = some (Worker.running t) →
        pool.threadsPool[i]? = some (Worker.running t)) ∧
      ∃ extra, s.invoked = pool.invoked ++ extra ∧
        (∀ it ∈ extra, pool.threadsPool[it.1]? = some (Worker.running it.2) ∧
          ∀ t, s.threadsPool[it.1]? ≠ some (Worker.running t)) ∧
        (extra.map Prod.fst).Nodup) :
    (step s ev).stop_flag = true ∧
      (∀ (i : Nat) (t : Task), (step s ev).threadsPool[i]? = some (Worker.running t) →
        pool.threadsPool[i]? = some (Worker.running t)) ∧
      ∃ extra, (step s ev).invoked = pool.invoked ++ extra ∧
        (∀ it ∈ extra, pool.threadsPool[it.1]? = some (Worker.running it.2) ∧
          ∀ t, (step s ev).threadsPool[it.1]? ≠ some (Worker.running t)) ∧
        (extra.map Prod.fst).Nodup := by
  obtain ⟨hs, hrun, extra, hinv, hex, hnd⟩ := h
  cases ev with
  | add_task f args =>
      cases f with
      | none => exact ⟨hs, hrun, extra, hinv, hex, hnd⟩
      | some g => exact ⟨hs, hrun, extra, hinv, hex, hnd⟩
  | stop => exact ⟨rfl, hrun, extra, hinv, hex, hnd⟩
  | worker i =>
      simp only [step, worker_step]
      cases hw : s.threadsPool[i]? with
      | none => exact ⟨hs, hrun, extra, hinv, hex, hnd⟩
      | some w =>
          cases w with
          | exited => exact ⟨hs, hrun, extra, hinv, hex, hnd⟩
          | waiting =>
              have hp : worker_pred s = true := by simp [worker_pred, hs]
              rw [if_pos hp, if_pos hs]
              refine ⟨hs, ?_, extra, hinv, ?_, hnd⟩
              · intro j t hj
                exact hrun j t (set_running _ i j _ t (by simp) hj).1
              · intro it hit
                exact ⟨(hex it hit).1, set_not_running _ i _ _ (by simp) (hex it hit).2⟩
          | running task =>
              refine ⟨hs, ?_, extra ++ [(i, task)], ?_, ?_, ?_⟩
              · intro j t hj
                exact hrun j t (set_running _ i j _ t (by simp) hj).1
              · simp [hinv]
              · intro it hit
                rcases List.mem_append.mp hit with h1 | h1
                · exact ⟨(hex it h1).1, set_not_running _ i _ _ (by simp) (hex it h1).2⟩
                · have hit1 : it = (i, task) := by simpa using h1
                  subst hit1
                  refine ⟨hrun i task hw, ?_⟩
                  intro t ht
                  exact (set_running _ i i _ t (by simp) ht).2 rfl
              · rw [List.map_append, List.nodup_append]
                refine ⟨hnd, by simp, ?_⟩
                intro a ha hb
                have hai : a = i := by simpa using hb
                subst hai
                obtain ⟨it, hit, hfst⟩ := List.mem_map.mp ha
                exact (hex it hit).2 task (by rw [hfst]; exact hw)

theorem run_after_stop (pool : State) (evs : List Event) :
    ∀ s : State,
      (s.stop_flag = true ∧
        (∀ (i : Nat) (t : Task), s.threadsPool[i]? = some (Worker.running t) →
          pool.threadsPool[i]? = some (Worker.running t)) ∧
        ∃ extra, s.invoked = pool.invoked ++ extra ∧
          (∀ it ∈ extra, pool.threadsPool[it.1]? = some (Worker.running it.2) ∧
            ∀ t, s.threadsPool[it.1]? ≠ some (Worker.running t)) ∧
          (extra.map Prod.fst).Nodup) →
      (run s evs).stop_flag = true ∧
        (∀ (i : Nat) (t : Task), (run s evs).threadsPool[i]? = some (Worker.running t) →
          pool.threadsPool[i]? = some (Worker.running t)) ∧
        ∃ extra, (run s evs).invoked = pool.invoked ++ extra ∧
          (∀ it ∈ extra, pool.threadsPool[it.1]? = some (Worker.running it.2) ∧
            ∀ t, (run s evs).threadsPool[it.1]? ≠ some (Worker.running t)) ∧
          (extra.map Prod.fst).Nodup := by
  induction evs with
  | nil => intro s h; exact h
  | cons ev evs ih =>
      intro s h
      simpa [run] using ih (step s ev) (step_after_stop pool s ev h)

/-- C8: `stop()` sets the stop flag and leaves the task queue empty.  In every
continuation (worker steps, `add_task` and further `stop` calls in any order, each
atomic) the flag stays set, no worker moves a task out of the queue (a worker that holds
a task held it already when `stop()` was called), and every call `task()` made in the
continuation is made by a worker that had dequeued that task before `stop()`, at most
once per worker; so a task that was only queued at `stop()`, not held by a worker, is
never invoked. -/
theorem stop_discards_queue (pool : State) (evs : List Event) :
    (stop pool).stop_flag = true ∧ (stop pool).tasks_queue = [] ∧
      (run (stop pool) evs).stop_flag = true ∧
      (∀ (i : Nat) (t : Task), (run (stop pool) evs).threadsPool[i]? = some (Worker.running t) →
        pool.threadsPool[i]? = some (Worker.running t)) ∧
      ∃ extra, (run (stop pool) evs).invoked = pool.invoked ++ extra ∧
        (∀ it ∈ extra, pool.threadsPool[it.1]? = some (Worker.running it.2)) ∧
        (extra.map Prod.fst).Nodup ∧
        ((∀ t ∈ pool.tasks_queue, ∀ i : Nat, pool.threadsPool[i]? ≠ some (Worker.running t)) →
          ∀ it ∈ extra, it.2 ∉ pool.tasks_queue) := by
  have h := run_after_stop pool evs (stop pool)
    ⟨rfl, fun i t hi => hi, [], by simp [stop], by simp, by simp⟩
  obtain ⟨hs, hrun, extra, hinv, hex, hnd⟩ := h
  refine ⟨rfl, rfl, hs, hrun, extra, hinv, fun it hit => (hex it hit).1, hnd, ?_⟩
  intro hq it hit hmem
  exact hq it.2 hmem it.1 (hex it hit).1

/-- Witness of C8: worker 0 holds task 1, worker 1 waits and task 2 is queued when
`stop()` is called; whatever follows, task 2 is not among the calls made afterwards. -/
theorem stop_discards_queue_witness :
    (∀ t ∈ [({ f := 2, args := [] } : Task)], ∀ i : Nat,
        [Worker.running { f := 1, args := [] }, Worker.waiting][i]? ≠ some (Worker.running t)) ∧
      ∃ extra,
        (run (stop { threadsPool := [Worker.running { f := 1, args := [] }, Worker.waiting],
                     tasks_queue := [{ f := 2, args := [] }], stop_flag := false,
                     invoked := [] })
            [Event.worker 1, Event.add_task (some 3) [], Event.worker 0, Event.worker 1,
              Event.worker 0]).invoked = [] ++ extra ∧
          ∀ it ∈ extra, it.2 ∉ [({ f := 2, args := [] } : Task)] := by
  have hq : ∀ t ∈ [({ f := 2, args := [] } : Task)], ∀ i : Nat,
      [Worker.running { f := 1, args := [] }, Worker.waiting][i]? ≠ some (Worker.running t) := by
    intro t ht i
    have ht1 : t = { f := 2, args := [] } := by simpa using ht
    subst ht1
    match i with
    | 0 => decide
    | 1 => decide
    | n + 2 => simp
  obtain ⟨extra, hinv, _, _, hnot⟩ :=
    (stop_discards_queue
      { threadsPool := [Worker.running { f := 1, args := [] }, Worker.waiting],
        tasks_queue := [{ f := 2, args := [] }], stop_flag := false, invoked := [] }
      [Event.worker 1, Event.add_task (some 3) [], Event.worker 0, Event.worker 1,
        Event.worker 0]).2.2.2.2
  exact ⟨hq, extra, hinv, hnot hq⟩

/-- C10, counterexample: a pool of one worker with one queued task whose destructor has
stored the stop flag.  The wait predicate holds, the queue is not empty, and the pass of
the worker through the loop body exits: the task stays in the queue and is not called. -/
theorem worker_exit_counterexample :
    ∃ pool : State, construct (fun _ => true) 1 = some pool ∧
      worker_pred (destructor_store (add_task pool (some 1) []).1) = true ∧
      (destructor_store (add_task pool (some 1) []).1).tasks_queue = [{ f := 1, args := [] }] ∧
      ¬ ((destructor_store (add_task pool (some 1) []).1).stop_flag = true ∧
          (destructor_store (add_task pool (some 1) []).1).tasks_queue = []) ∧
      (worker_iteration (destructor_store (add_task pool (some 1) []).1) 0).2 =
        IterationOutcome.exited ∧
      (worker_iteration (destructor_store (add_task pool (some 1) []).1) 0).1.tasks_queue =
        [{ f := 1, args := [] }] ∧
      (worker_iteration (destructor_store (add_task pool (some 1) []).1) 0).1.invoked = [] :=
  ⟨_, rfl, by decide, by decide, by decide, by decide, by decide, by decide⟩

/-- C10, amended: once the wait predicate holds, a pass of a worker through the loop
body exits if and only if the stop flag is set, whether the queue is empty or not, and
then it leaves the queue and the trace of calls unchanged; when the flag is clear the
queue is not empty and the pass removes exactly the head task and calls it once. -/
theorem worker_iteration_exit (pool : State) (i : Nat) (hpred : worker_pred pool = true) :
    ((worker_iteration pool i).2 = IterationOutcome.exited ↔ pool.stop_flag = true) ∧
      (pool.stop_flag = true →
        worker_iteration pool i =
          ({ pool with threadsPool := pool.threadsPool.set i Worker.exited },
            IterationOutcome.exited)) ∧
      (pool.stop_flag = false →
        ∃ task rest, pool.tasks_queue = task :: rest ∧
          worker_iteration pool i =
            ({ pool with tasks_queue := rest, invoked := pool.invoked ++ [(i, task)] },
              IterationOutcome.ran task)) := by
  by_cases hs : pool.stop_flag = true
  · have hit : worker_iteration pool i =
        ({ pool with threadsPool := pool.threadsPool.set i Worker.exited },
          IterationOutcome.exited) := by
      simp [worker_iteration, hpred, hs]
    refine ⟨?_, fun _ => hit, ?_⟩
    · rw [hit]
      simp [hs]
    · intro hf
      rw [hs] at hf
      exact absurd hf (by decide)
  · have hf : pool.stop_flag = false := by simpa using hs
    cases hq : pool.tasks_queue with
    | nil => simp [worker_pred, hq, hf] at hpred
    | cons task rest =>
        have hit : worker_iteration pool i =
            ({ pool with tasks_queue := rest, invoked := pool.invoked ++ [(i, task)] },
              IterationOutcome.ran task) := by
          simp [worker_iteration, hpred, hf, hq]
        refine ⟨?_, ?_, fun _ => ⟨task, rest, rfl, hit⟩⟩
        · rw [hit]
          simp [hf]
        · intro h1
          exact absurd h1 hs

/-- Witness of the amended C10: a running pool with two queued tasks; the pass of
worker 0 removes the head task and calls it. -/
theorem worker_iteration_exit_witness :
    worker_pred { threadsPool := [Worker.waiting],
                  tasks_queue := [{ f := 1, args := [] }, { f := 2, args := [] }],
                  stop_flag := false, invoked := [] } = true ∧
      ∃ task rest,
        [({ f := 1, args := [] } : Task), { f := 2, args := [] }] = task :: rest ∧
          worker_iteration { threadsPool := [Worker.waiting],
                             tasks_queue := [{ f := 1, args := [] }, { f := 2, args := [] }],
                             stop_flag := false, invoked := [] } 0 =
            ({ threadsPool := [Worker.waiting], tasks_queue := rest, stop_flag := false,
               invoked := [] ++ [(0, task)] }, IterationOutcome.ran task) :=
  ⟨rfl, (worker_iteration_exit
    { threadsPool := [Worker.waiting],
      tasks_queue := [{ f := 1, args := [] }, { f := 2, args := [] }],
      stop_flag := false, invoked := [] } 0 rfl).2.2 rfl⟩

/-- The pass through the loop body and the atomic steps agree: for a worker at the
`wait`, two steps (critical section, then the call) reach the state of one pass. -/
theorem worker_steps_eq_iteration (pool : State) (i : Nat)
    (hw : pool.threadsPool[i]? = some Worker.waiting) :
    worker_step (worker_step pool i) i = (worker_iteration pool i).1 := by
  have hlt : i < pool.threadsPool.length := by
    by_contra hge
    rw [List.getElem?_eq_none (by simpa using hge)] at hw
    exact absurd hw (by simp)
  by_cases hp : worker_pred pool = true
  · by_cases hs : pool.stop_flag = true
    · simp [worker_step, worker_iteration, hw, hp, hs, hlt]
    · have hf : pool.stop_flag = false := by simpa using hs
      cases hq : pool.tasks_queue with
      | nil => simp [worker_pred, hq, hf] at hp
      | cons task rest =>
          have hset : pool.threadsPool.set i Worker.waiting = pool.threadsPool := by
            apply List.ext_getElem?
            intro j
            by_cases hij : i = j
            · subst hij
              rw [List.getElem?_set_self hlt, hw]
            · rw [List.getElem?_set_ne hij]
          simp [worker_step, worker_iteration, hw, hp, hf, hq, hlt, hset]
  · have hp1 : worker_pred pool = false := by simpa using hp
    simp [worker_step, worker_iteration, hw, hp1]

end ThreadPool

namespace Shared_ptr

/-! ## The reference-counted handle

### Variables and counting -/

theorem var_putVar (v : Nat) :
    ∀ (vars : List (Option Handle)) (h : Option Handle) (w : Nat),
      (putVar vars v h)[w]?.join = if w = v then h else vars[w]?.join := by
  induction v with
  | zero =>
      intro vars h w
      cases vars <;> cases w <;> simp [putVar]
  | succ v ih =>
      intro vars h w
      cases vars with
      | nil =>
          cases w with
          | zero => simp [putVar]
          | succ w => simpa [putVar] using ih [] h w
      | cons x xs =>
          cases w with
          | zero => simp [putVar]
          | succ w => simpa [putVar] using ih xs h w

theorem mem_putVar (v : Nat) :
    ∀ (vars : List (Option Handle)) (h : Option Handle) (k : Handle),
      some k ∈ putVar vars v h → some k ∈ vars ∨ h = some k := by
  induction v with
  | zero =>
      intro vars h k hk
      cases vars with
      | nil =>
          right
          simpa [putVar, eq_comm] using hk
      | cons x xs =>
          simp only [putVar, List.mem_cons] at hk
          rcases hk with hk | hk
          · exact Or.inr hk.symm
          · exact Or.inl (List.mem_cons_of_mem _ hk)
  | succ v ih =>
      intro vars h k hk
      cases vars with
      | nil =>
          simp only [putVar, List.mem_cons] at hk
          rcases hk with hk | hk
          · exact absurd hk (by simp)
          · rcases ih [] h k hk with h1 | h1
            · exact Or.inl h1
            · exact Or.inr h1
      | cons x xs =>
          simp only [putVar, List.mem_cons] at hk
          rcases hk with hk | hk
          · exact Or.inl (by simp [hk])
          · rcases ih xs h k hk with h1 | h1
            · exact Or.inl (List.mem_cons_of_mem _ h1)
            · exact Or.inr h1

theorem putVar_putVar (v : Nat) :
    ∀ (vars : List (Option Handle)) (x y : Option Handle),
      putVar (putVar vars v x) v y = putVar vars v y := by
  induction v with
  | zero =>
      intro vars x y
      cases vars <;> simp [putVar]
  | succ v ih =>
      intro vars x y
      cases vars with
      | nil => simpa [putVar] using ih [] x y
      | cons z zs => simpa [putVar] using ih zs x y

theorem count_putVar (q : Option Handle → Bool) (hq : q none = false) (v : Nat) :
    ∀ (vars : List (Option Handle)) (h : Option Handle),
      ((putVar vars v h).filter q).length + (if q vars[v]?.join then 1 else 0) =
        (vars.filter q).length + (if q h then 1 else 0) := by
  induction v with
  | zero =>
      intro vars h
      cases vars with
      | nil => cases hh : q h <;> simp [putVar, hq, hh]
      | cons x xs =>
          cases hh : q h <;> cases hx : q x <;> simp [putVar, hh, hx, List.filter_cons]
  | succ v ih =>
      intro vars h
      cases vars with
      | nil =>
          have h1 := ih [] h
          simp only [putVar, List.filter_cons, hq] at h1 ⊢
          simpa using h1
      | cons x xs =>
          have h1 := ih xs h
          cases hx : q x <;> simp [putVar, hx, List.filter_cons] at h1 ⊢ <;> omega

theorem mem_of_var (m : Mem) (v : Nat) (t : Handle) (h : m.var v = some t) :
    some t ∈ m.vars := by
  unfold Mem.var at h
  cases hv : m.vars[v]? with
  | none => simp [hv] at h
  | some x =>
      simp only [hv, Option.join] at h
      subst h
      exact List.getElem?_mem hv

theorem count_zero (q : Option Handle → Bool) (vars : List (Option Handle))
    (h : (vars.filter q).length = 0) (x : Option Handle) (hx : x ∈ vars) : q x = false := by
  have hnil : vars.filter q = [] := List.length_eq_zero.mp h
  by_contra hne
  have : x ∈ vars.filter q := List.mem_filter.mpr ⟨hx, by simpa using hne⟩
  rw [hnil] at this
  exact absurd this (by simp)

theorem count_pos (q : Option Handle → Bool) (vars : List (Option Handle))
    (x : Option Handle) (hx : x ∈ vars) (hqx : q x = true) :
    0 < (vars.filter q).length :=
  List.length_pos_of_mem (List.mem_filter.mpr ⟨hx, hqx⟩)

theorem var_put (m : Mem) (v w : Nat) (x : Option Handle) (heap : Heap) :
    (m.put v x heap).var w = if w = v then x else m.var w :=
  var_putVar v m.vars x w

theorem put_put (m : Mem) (v : Nat) (x y : Option Handle) (h1 h2 : Heap) :
    (m.put v x h1).put v y h2 = m.put v y h2 := by
  simp [Mem.put, putVar_putVar]

theorem holders_put (m : Mem) (v : Nat) (x : Option Handle) (heap : Heap) (a : Nat) :
    (m.put v x heap).holders a + (if (m.var v).bind Handle.ref_count = some a then 1 else 0) =
      m.holders a + (if x.bind Handle.ref_count = some a then 1 else 0) := by
  have h := count_putVar (fun h => decide (h.bind Handle.ref_count = some a)) (by simp) v
    m.vars x
  simpa [Mem.holders, holdersOf, Mem.put, Mem.var] using h

theorem holders_pos (m : Mem) (v : Nat) (t : Handle) (a : Nat) (hv : m.var v = some t)
    (ha : t.ref_count = some a) : 0 < m.holders a :=
  count_pos _ m.vars (some t) (mem_of_var m v t hv) (by simp [ha])

theorem holders_pos_of_mem (m : Mem) (t : Handle) (a : Nat) (hv : some t ∈ m.vars)
    (ha : t.ref_count = some a) : 0 < m.holders a :=
  count_pos _ m.vars (some t) hv (by simp [ha])

theorem holders_lt (m : Mem) (hc : m.counted) (a : Nat) (ha : 0 < m.holders a) :
    a < m.heap.cells.length := by
  have h := hc a ha
  by_contra hge
  rw [List.getElem?_eq_none (by simpa using hge)] at h
  exact absurd h (by simp)

theorem paired_put (m : Mem) (v : Nat) (x : Option Handle) (heap : Heap) (hp : m.paired)
    (hx : ∀ k : Handle, x = some k → (k.ptr = 0 ↔ k.ref_count = none) ∧
      ∀ h : Handle, some h ∈ m.vars → (k.ptr = h.ptr ↔ k.ref_count = h.ref_count)) :
    (m.put v x heap).paired := by
  constructor
  · intro h hh
    rcases mem_putVar v m.vars x h hh with h1 | h1
    · exact hp.1 h h1
    · exact (hx h h1).1
  · intro h k hh hk
    rcases mem_putVar v m.vars x h hh with h1 | h1 <;>
      rcases mem_putVar v m.vars x k hk with k1 | k1
    · exact hp.2 h k h1 k1
    · have := (hx k k1).2 h h1
      constructor
      · intro e; exact (this.mp e.symm).symm
      · intro e; exact (this.mpr e.symm).symm
    · exact (hx h h1).2 k k1
    · have e : h = k := Option.some.inj (h1.symm.trans k1)
      subst e
      simp

theorem paired_put_null (m : Mem) (v : Nat) (heap : Heap) (hp : m.paired) :
    (m.put v (some { ptr := 0, ref_count := none }) heap).paired := by
  apply paired_put m v _ heap hp
  intro k hk
  have e : k = { ptr := 0, ref_count := none } := (Option.some.inj hk).symm
  subst e
  refine ⟨by simp, fun h hh => ?_⟩
  have := hp.1 h hh
  constructor
  · intro e1; exact (this.mp e1.symm).symm
  · intro e1; exact (this.mpr e1.symm).symm

theorem paired_put_none (m : Mem) (v : Nat) (heap : Heap) (hp : m.paired) :
    (m.put v none heap).paired :=
  paired_put m v none heap hp (fun k hk => absurd hk (by simp))

theorem paired_put_old (m : Mem) (v : Nat) (o : Handle) (heap : Heap) (hp : m.paired)
    (ho : some o ∈ m.vars) : (m.put v (some o) heap).paired := by
  apply paired_put m v _ heap hp
  intro k hk
  have e : k = o := (Option.some.inj hk).symm
  subst e
  exact ⟨hp.1 k ho, fun h hh => hp.2 k h ho hh⟩

/-! ### The building blocks of the member functions keep the invariant -/

theorem holders_put_of (m : Mem) (v : Nat) (x : Option Handle) (heap : Heap) (b : Nat)
    (c1 c2 : Option Nat) (h1 : (m.var v).bind Handle.ref_count = c1)
    (h2 : x.bind Handle.ref_count = c2) :
    (m.put v x heap).holders b + (if c1 = some b then 1 else 0) =
      m.holders b + (if c2 = some b then 1 else 0) := by
  rw [← h1, ← h2]
  exact holders_put m v x heap b

theorem counted_put_same (m : Mem) (v : Nat) (x : Option Handle) (hc : m.counted)
    (h1 : (m.var v).bind Handle.ref_count = none) (h2 : x.bind Handle.ref_count = none) :
    (m.put v x m.heap).counted := by
  intro b hb
  have hh := holders_put_of m v x m.heap b none none h1 h2
  simp only [reduceCtorEq, if_false, Nat.add_zero] at hh
  rw [hh] at hb ⊢
  exact hc b hb

theorem drop_consistent (m : Mem) (v : Nat) (t : Handle) (x : Option Handle)
    (hx : x = none ∨ x = some { ptr := 0, ref_count := none }) (hc : m.consistent)
    (hv : m.var v = some t) :
    ∃ r, release_ref t m.heap = some r ∧ (m.put v x r.2).consistent := by
  have hxb : x.bind Handle.ref_count = none := by
    rcases hx with h | h <;> simp [h]
  have hpair : ∀ heap, (m.put v x heap).paired := by
    intro heap
    rcases hx with h | h
    · rw [h]; exact paired_put_none m v heap hc.1
    · rw [h]; exact paired_put_null m v heap hc.1
  cases ha : t.ref_count with
  | none =>
      refine ⟨(t, m.heap), by simp [release_ref, ha], hpair _, ?_⟩
      exact counted_put_same m v x hc.2 (by simp [hv, ha]) hxb
  | some a =>
      have hpos := holders_pos m v t a hv ha
      have hcell := hc.2 a hpos
      have hlt := holders_lt m hc.2 a hpos
      have hcount : ∀ (heap : Heap) (b : Nat),
          (m.put v x heap).holders b + (if some a = some b then 1 else 0) =
            m.holders b + (if (none : Option Nat) = some b then 1 else 0) :=
        fun heap b => holders_put_of m v x heap b (some a) none (by simp [hv, ha]) hxb
      by_cases hz : (m.holders a : Int) - 1 = 0
      · obtain ⟨H, hH⟩ : ∃ H : Heap, H = ⟨m.heap.cells.set a none,
            if t.ptr = 0 then m.heap.deleted else m.heap.deleted ++ [t.ptr]⟩ := ⟨_, rfl⟩
        refine ⟨({ ptr := 0, ref_count := none }, H),
          by simp [release_ref, ha, hcell, hz, hH], hpair _, ?_⟩
        intro b hb
        have hh := hcount H b
        by_cases hab : a = b
        · subst hab
          simp only [if_true, reduceCtorEq, if_false] at hh
          simp only [Mem.holders, Mem.put] at hh hb hz
          omega
        · have hab1 : ¬ some a = some b := fun e => hab (Option.some.inj e)
          simp only [hab1, if_false, reduceCtorEq, Nat.add_zero] at hh
          rw [hh] at hb ⊢
          simp only [Mem.put, hH]
          rw [List.getElem?_set_ne hab]
          exact hc.2 b hb
      · obtain ⟨H, hH⟩ : ∃ H : Heap, H = ⟨m.heap.cells.set a (some ((m.holders a : Int) - 1)),
            m.heap.deleted⟩ := ⟨_, rfl⟩
        refine ⟨(t, H), by simp [release_ref, ha, hcell, hz, hH], hpair _, ?_⟩
        intro b hb
        have hh := hcount H b
        by_cases hab : a = b
        · subst hab
          simp only [if_true, reduceCtorEq, if_false] at hh
          simp only [Mem.put, hH]
          rw [List.getElem?_set_self hlt]
          congr 2
          simp only [Mem.holders, Mem.put] at hh ⊢
          omega
        · have hab1 : ¬ some a = some b := fun e => hab (Option.some.inj e)
          simp only [hab1, if_false, reduceCtorEq, Nat.add_zero] at hh
          rw [hh] at hb ⊢
          simp only [Mem.put, hH]
          rw [List.getElem?_set_ne hab]
          exact hc.2 b hb

theorem acquire_consistent (m : Mem) (v o : Nat) (oh : Handle) (hc : m.consistent)
    (hv : (m.var v).bind Handle.ref_count = none) (ho : m.var o = some oh) :
    ∃ heap, add_ref oh m.heap = some heap ∧ (m.put v (some oh) heap).consistent := by
  have hpair : ∀ heap, (m.put v (some oh) heap).paired :=
    fun heap => paired_put_old m v oh heap hc.1 (mem_of_var m o oh ho)
  cases ha : oh.ref_count with
  | none =>
      refine ⟨m.heap, by simp [add_ref, ha], hpair _, ?_⟩
      exact counted_put_same m v (some oh) hc.2 hv (by simp [ha])
  | some a =>
      have hpos := holders_pos m o oh a ho ha
      have hcell := hc.2 a hpos
      have hlt := holders_lt m hc.2 a hpos
      obtain ⟨H, hH⟩ : ∃ H : Heap, H = ⟨m.heap.cells.set a (some ((m.holders a : Int) + 1)),
          m.heap.deleted⟩ := ⟨_, rfl⟩
      refine ⟨H, by simp [add_ref, ha, hcell, hH], hpair _, ?_⟩
      intro b hb
      have hh := holders_put_of m v (some oh) H b none (some a) hv (by simp [ha])
      by_cases hab : a = b
      · subst hab
        simp only [if_true, if_false, reduceCtorEq, Nat.add_zero] at hh
        simp only [Mem.put, hH]
        rw [List.getElem?_set_self hlt]
        congr 2
        simp only [Mem.holders, Mem.put] at hh ⊢
        omega
      · have hab1 : ¬ some a = some b := fun e => hab (Option.some.inj e)
        simp only [hab1, if_false, reduceCtorEq, Nat.add_zero] at hh
        rw [hh] at hb ⊢
        simp only [Mem.put, hH]
        rw [List.getElem?_set_ne hab]
        exact hc.2 b hb

theorem sharers_put (m : Mem) (v : Nat) (x : Option Handle) (heap : Heap) (p : Nat) :
    (m.put v x heap).sharers p + (if (m.var v).map Handle.ptr = some p then 1 else 0) =
      m.sharers p + (if x.map Handle.ptr = some p then 1 else 0) := by
  have h := count_putVar (fun h => decide (h.map Handle.ptr = some p)) (by simp) v m.vars x
  simpa [Mem.sharers, Mem.put, Mem.var] using h

theorem not_sharer (m : Mem) (p : Nat) (h : Handle) (hz : m.sharers p = 0)
    (hh : some h ∈ m.vars) : h.ptr ≠ p := by
  have := count_zero _ m.vars hz (some h) hh
  simpa using this

theorem new_consistent (m : Mem) (v p : Nat) (hc : m.consistent)
    (hv : (m.var v).bind Handle.ref_count = none) (hp : m.fresh p = true) :
    (m.put v (some (ctor p m.heap).1) (ctor p m.heap).2).consistent := by
  by_cases hp0 : p = 0
  · have hct : ctor p m.heap = ({ ptr := 0, ref_count := none }, m.heap) := by
      simp [ctor, hp0]
    rw [hct]
    exact ⟨paired_put_null m v m.heap hc.1, counted_put_same m v _ hc.2 hv (by simp)⟩
  · have hz : m.sharers p = 0 := by simpa [Mem.fresh, hp0] using hp
    obtain ⟨H, hH⟩ : ∃ H : Heap, H = ⟨m.heap.cells ++ [some 1], m.heap.deleted⟩ := ⟨_, rfl⟩
    have hct : ctor p m.heap = ({ ptr := p, ref_count := some m.heap.cells.length }, H) := by
      simp [ctor, hp0, hH]
    rw [hct]
    have hnone : m.holders m.heap.cells.length = 0 := by
      by_contra hne
      exact absurd (holders_lt m hc.2 _ (Nat.pos_of_ne_zero hne)) (lt_irrefl _)
    constructor
    · apply paired_put m v _ H hc.1
      intro k hk
      have e : k = { ptr := p, ref_count := some m.heap.cells.length } :=
        (Option.some.inj hk).symm
      subst e
      refine ⟨by simp [hp0], fun h hh => ?_⟩
      constructor
      · intro e1
        exact absurd e1.symm (not_sharer m p h hz hh)
      · intro e1
        have hpos := holders_pos_of_mem m h m.heap.cells.length hh e1.symm
        omega
    · intro b hb
      have hh := holders_put_of m v (some { ptr := p, ref_count := some m.heap.cells.length })
        H b none (some m.heap.cells.length) hv (by simp)
      by_cases hab : m.heap.cells.length = b
      · subst hab
        simp only [if_true, if_false, reduceCtorEq, Nat.add_zero] at hh
        simp only [Mem.holders, Mem.put] at hh hnone ⊢
        rw [hh, hnone, hH]
        simp
      · have hab1 : ¬ some m.heap.cells.length = some b := fun e => hab (Option.some.inj e)
        simp only [hab1, if_false, reduceCtorEq, Nat.add_zero] at hh
        rw [hh] at hb ⊢
        have hlt := holders_lt m hc.2 b hb
        simp only [Mem.put, hH]
        rw [List.getElem?_append_left hlt]
        exact hc.2 b hb

theorem move_consistent (m : Mem) (v o : Nat) (oh : Handle) (hc : m.consistent)
    (hv : (m.var v).bind Handle.ref_count = none) (ho : m.var o = some oh) (hne : o ≠ v) :
    ((m.put v (some oh) m.heap).put o (some { ptr := 0, ref_count := none })
      m.heap).consistent := by
  constructor
  · exact paired_put_null _ o m.heap
      (paired_put_old m v oh m.heap hc.1 (mem_of_var m o oh ho))
  · intro b hb
    have ho1 : (m.put v (some oh) m.heap).var o = some oh := by
      rw [var_put, if_neg hne, ho]
    have h1 := holders_put_of m v (some oh) m.heap b none (oh.ref_count) hv (by simp)
    have h2 := holders_put_of (m.put v (some oh) m.heap) o
      (some { ptr := 0, ref_count := none }) m.heap b (oh.ref_count) none
      (by simp [ho1]) (by simp)
    simp only [reduceCtorEq, if_false, Nat.add_zero] at h1 h2
    have h3 : ((m.put v (some oh) m.heap).put o (some { ptr := 0, ref_count := none })
        m.heap).holders b = m.holders b := by omega
    rw [h3] at hb ⊢
    exact hc.2 b hb

theorem release_consistent (m : Mem) (v : Nat) (t : Handle) (hc : m.consistent)
    (hv : m.var v = some t)
    (hu : m.use_count v = some 0 ∨ m.use_count v = some 1) :
    (m.put v (some { ptr := 0, ref_count := none }) m.heap).consistent := by
  refine ⟨paired_put_null m v m.heap hc.1, ?_⟩
  cases ha : t.ref_count with
  | none => exact counted_put_same m v _ hc.2 (by simp [hv, ha]) (by simp)
  | some a =>
      have hpos := holders_pos m v t a hv ha
      have hcell := hc.2 a hpos
      have hone : m.holders a = 1 := by
        simp only [Mem.use_count, hv, Option.bind, use_count, ha, hcell] at hu
        rcases hu with h | h
        · have := Option.some.inj h
          omega
        · have := Option.some.inj h
          omega
      intro b hb
      have hh := holders_put_of m v (some { ptr := 0, ref_count := none }) m.heap b
        (some a) none (by simp [hv, ha]) (by simp)
      by_cases hab : a = b
      · subst hab
        simp only [if_true, if_false, reduceCtorEq, Nat.add_zero] at hh
        omega
      · have hab1 : ¬ some a = some b := fun e => hab (Option.some.inj e)
        simp only [hab1, if_false, reduceCtorEq, Nat.add_zero] at hh
        rw [hh] at hb ⊢
        exact hc.2 b hb

theorem var_of_live (m : Mem) (v : Nat) (h : m.live v = true) : ∃ t, m.var v = some t :=
  Option.isSome_iff_exists.mp h

theorem var_of_not_live (m : Mem) (v : Nat) (h : m.live v = false) : m.var v = none := by
  simpa [Mem.live] using h

/-- Every statement of a program that keeps the discipline is defined and keeps the
representation invariant. -/
theorem exec_consistent (m : Mem) (op : Op) (hc : m.consistent)
    (ha : admissible m op = true) : ∃ m1, exec m op = some m1 ∧ m1.consistent := by
  cases op with
  | ctor v p =>
      simp only [admissible, Bool.and_eq_true, Bool.not_eq_true'] at ha
      have hv := var_of_not_live m v ha.1
      exact ⟨_, by simp [exec, hv], new_consistent m v p hc (by simp [hv]) ha.2⟩
  | copy_ctor v o =>
      simp only [admissible, Bool.and_eq_true, Bool.not_eq_true'] at ha
      have hv := var_of_not_live m v ha.1
      obtain ⟨oh, ho⟩ := var_of_live m o ha.2
      obtain ⟨heap, hadd, hcons⟩ := acquire_consistent m v o oh hc (by simp [hv]) ho
      exact ⟨_, by simp [exec, hv, ho, hadd], hcons⟩
  | copy_assign v o =>
      simp only [admissible, Bool.and_eq_true] at ha
      obtain ⟨t, hv⟩ := var_of_live m v ha.1
      obtain ⟨oh, ho⟩ := var_of_live m o ha.2
      by_cases hvo : v = o
      · exact ⟨m, by simp [exec, hv, ho, hvo], hc⟩
      · obtain ⟨r, hr, hc1⟩ := drop_consistent m v t (some { ptr := 0, ref_count := none })
          (Or.inr rfl) hc hv
        have ho1 : (m.put v (some { ptr := 0, ref_count := none }) r.2).var o = some oh := by
          rw [var_put, if_neg (Ne.symm hvo), ho]
        obtain ⟨heap, hadd, hcons⟩ := acquire_consistent _ v o oh hc1
          (by simp [var_put]) ho1
        rw [put_put] at hcons
        exact ⟨_, by simp [exec, hv, ho, hvo, hr, hadd, Mem.put] at hadd ⊢, hcons⟩
  | move_ctor v o =>
      simp only [admissible, Bool.and_eq_true, Bool.not_eq_true'] at ha
      have hv := var_of_not_live m v ha.1
      obtain ⟨oh, ho⟩ := var_of_live m o ha.2
      have hne : o ≠ v := by
        intro e
        rw [e, hv] at ho
        exact absurd ho (by simp)
      exact ⟨_, by simp [exec, hv, ho], move_consistent m v o oh hc (by simp [hv]) ho hne⟩
  | move_assign v o =>
      simp only [admissible, Bool.and_eq_true] at ha
      obtain ⟨t, hv⟩ := var_of_live m v ha.1
      obtain ⟨oh, ho⟩ := var_of_live m o ha.2
      by_cases hvo : v = o
      · exact ⟨m, by simp [exec, hv, ho, hvo], hc⟩
      · obtain ⟨r, hr, hc1⟩ := drop_consistent m v t (some { ptr := 0, ref_count := none })
          (Or.inr rfl) hc hv
        have ho1 : (m.put v (some { ptr := 0, ref_count := none }) r.2).var o = some oh := by
          rw [var_put, if_neg (Ne.symm hvo), ho]
        have hcons := move_consistent _ v o oh hc1 (by simp [var_put]) ho1 (Ne.symm hvo)
        rw [put_put] at hcons
        exact ⟨_, by simp [exec, hv, ho, hvo, hr]; rfl, hcons⟩
  | reset v p =>
      simp only [admissible, Bool.and_eq_true, Bool.or_eq_true, decide_eq_true_eq] at ha
      obtain ⟨t, hv⟩ := var_of_live m v ha.1
      by_cases hpt : p = t.ptr
      · exact ⟨m, by simp [exec, hv, hpt], hc⟩
      · have hfresh : m.fresh p = true := by
          rcases ha.2 with h | h
          · exact h
          · rw [hv] at h
            exact absurd (Option.some.inj h).symm hpt
        obtain ⟨r, hr, hc1⟩ := drop_consistent m v t (some { ptr := 0, ref_count := none })
          (Or.inr rfl) hc hv
        have hfresh1 : (m.put v (some { ptr := 0, ref_count := none }) r.2).fresh p = true := by
          by_cases hp0 : p = 0
          · simp [Mem.fresh, hp0]
          · have hz : m.sharers p = 0 := by simpa [Mem.fresh, hp0] using hfresh
            have hs := sharers_put m v (some { ptr := 0, ref_count := none }) r.2 p
            have e1 : ¬ (m.var v).map Handle.ptr = some p := by
              rw [hv]
              intro e
              exact hpt (Option.some.inj e).symm
            have e2 : ¬ (some ({ ptr := 0, ref_count := none } : Handle)).map Handle.ptr =
                some p := by
              intro e
              exact hp0 (Option.some.inj e).symm
            simp only [e1, e2, if_false, Nat.add_zero] at hs
            simp [Mem.fresh, hs, hz]
        have hcons := new_consistent _ v p hc1 (by simp [var_put]) hfresh1
        rw [put_put] at hcons
        exact ⟨_, by simp [exec, hv, hpt, hr, Mem.put] at hcons ⊢, hcons⟩
  | release v =>
      simp only [admissible, Bool.and_eq_true, Bool.or_eq_true, decide_eq_true_eq] at ha
      obtain ⟨t, hv⟩ := var_of_live m v ha.1
      exact ⟨_, by simp [exec, hv], release_consistent m v t hc hv ha.2⟩
  | dtor v =>
      simp only [admissible] at ha
      obtain ⟨t, hv⟩ := var_of_live m v ha
      obtain ⟨r, hr, hc1⟩ := drop_consistent m v t none (Or.inl rfl) hc hv
      exact ⟨_, by simp [exec, hv, hr], hc1⟩

theorem init_consistent : Mem.init.consistent := by
  refine ⟨⟨?_, ?_⟩, ?_⟩
  · intro h hh
    simp [Mem.init] at hh
  · intro h k hh
    simp [Mem.init] at hh
  · intro a ha
    simp [Mem.init, Mem.holders, holdersOf] at ha

theorem execAll_consistent (ops : List Op) :
    ∀ m : Mem, m.consistent → admissibleAll m ops = true →
      ∃ m1, execAll m ops = some m1 ∧ m1.consistent := by
  induction ops with
  | nil => intro m hc _; exact ⟨m, rfl, hc⟩
  | cons op ops ih =>
      intro m hc ha
      simp only [admissibleAll, Bool.and_eq_true] at ha
      obtain ⟨m1, he, hc1⟩ := exec_consistent m op hc ha.1
      have ha2 := ha.2
      rw [he] at ha2
      obtain ⟨m2, he2, hc2⟩ := ih m1 hc1 ha2
      exact ⟨m2, by simp [execAll, he, he2], hc2⟩

theorem use_count_of_consistent (m : Mem) (hc : m.consistent) (v : Nat) (h : Handle)
    (hv : m.var v = some h) :
    m.use_count v = some (if h.ptr = 0 then 0 else (m.sharers h.ptr : Int)) := by
  have hmem := mem_of_var m v h hv
  cases ha : h.ref_count with
  | none =>
      have hp : h.ptr = 0 := (hc.1.1 h hmem).mpr ha
      simp [Mem.use_count, hv, use_count, ha, hp]
  | some a =>
      have hp : h.ptr ≠ 0 := fun e => by
        have := (hc.1.1 h hmem).mp e
        rw [ha] at this
        exact absurd this (by simp)
      have hcell := hc.2 a (holders_pos m v h a hv ha)
      have heq : m.holders a = m.sharers h.ptr := by
        unfold Mem.holders holdersOf Mem.sharers
        congr 1
        apply List.filter_congr
        intro x hx
        cases x with
        | none => simp
        | some k =>
            have := hc.1.2 h k hmem hx
            rw [ha] at this
            simp only [Option.bind, Option.map, decide_eq_decide]
            constructor
            · intro e
              exact congrArg some (this.mpr e.symm).symm
            · intro e
              exact (this.mp (Option.some.inj e).symm).symm
      simp [Mem.use_count, hv, use_count, ha, hcell, hp, heq]

/-- The reference count is right on every program that keeps the discipline (fresh raw
pointers, variables used in scope, `release` only on an empty object or a sole owner):
the program is defined, and afterwards `use_count()` of every live object is 0 when the
object is empty and otherwise the number of live objects with the same resource. -/
theorem use_count_counts_sharers (ops : List Op) (ha : admissibleAll Mem.init ops = true) :
    ∃ m : Mem, execAll Mem.init ops = some m ∧
      ∀ (v : Nat) (h : Handle), m.var v = some h →
        m.use_count v = some (if h.ptr = 0 then 0 else (m.sharers h.ptr : Int)) := by
  obtain ⟨m, he, hc⟩ := execAll_consistent ops Mem.init init_consistent ha
  exact ⟨m, he, fun v h hv => use_count_of_consistent m hc v h hv⟩

/-- The statements of the demo `my_shared_ptr` keep the discipline, so the reference
count is right after them. -/
theorem demo_counts_sharers :
    ∃ m : Mem,
      execAll Mem.init [Op.ctor 1 100, Op.copy_ctor 2 1, Op.reset 2 200, Op.move_ctor 3 2,
          Op.ctor 4 300, Op.copy_assign 4 3, Op.reset 4 0, Op.move_assign 4 3,
          Op.release 4] = some m ∧
        ∀ (v : Nat) (h : Handle), m.var v = some h →
          m.use_count v = some (if h.ptr = 0 then 0 else (m.sharers h.ptr : Int)) :=
  use_count_counts_sharers _ (by decide)

/-! ### The demo and `release` on a shared resource -/

/-- The statements of the demo `my_shared_ptr` up to the first `release`: the variables
`ptr1` .. `ptr4` are 1 .. 4, the three resources are the addresses 100, 200 and 300.
After each prefix the values of `use_count` are the ones the comments of the demo
announce. -/
theorem demo_use_counts :
    (execAll Mem.init [Op.ctor 1 100]).bind (fun m => m.use_count 1) = some 1 ∧
      (execAll Mem.init [Op.ctor 1 100, Op.copy_ctor 2 1]).bind
          (fun m => (m.use_count 1).bind (fun a => (m.use_count 2).map (fun b => (a, b)))) =
        some (2, 2) ∧
      (execAll Mem.init [Op.ctor 1 100, Op.copy_ctor 2 1, Op.reset 2 200]).bind
          (fun m => (m.use_count 1).bind (fun a => (m.use_count 2).map (fun b => (a, b)))) =
        some (1, 1) ∧
      (execAll Mem.init [Op.ctor 1 100, Op.copy_ctor 2 1, Op.reset 2 200, Op.move_ctor 3 2]).bind
          (fun m => (m.use_count 2).bind (fun a => (m.use_count 3).map (fun b => (a, b)))) =
        some (0, 1) ∧
      (execAll Mem.init [Op.ctor 1 100, Op.copy_ctor 2 1, Op.reset 2 200, Op.move_ctor 3 2,
          Op.ctor 4 300, Op.copy_assign 4 3]).bind
          (fun m => (m.use_count 3).bind (fun a => (m.use_count 4).map (fun b => (a, b)))) =
        some (2, 2) ∧
      (execAll Mem.init [Op.ctor 1 100, Op.copy_ctor 2 1, Op.reset 2 200, Op.move_ctor 3 2,
          Op.ctor 4 300, Op.copy_assign 4 3, Op.reset 4 0]).bind
          (fun m => (m.use_count 3).bind (fun a => (m.use_count 4).map (fun b => (a, b)))) =
        some (1, 0) ∧
      (execAll Mem.init [Op.ctor 1 100, Op.copy_ctor 2 1, Op.reset 2 200, Op.move_ctor 3 2,
          Op.ctor 4 300, Op.copy_assign 4 3, Op.reset 4 0, Op.move_assign 4 3]).bind
          (fun m => (m.use_count 3).bind (fun a => (m.use_count 4).map (fun b => (a, b)))) =
        some (0, 1) ∧
      (execAll Mem.init [Op.ctor 1 100, Op.copy_ctor 2 1, Op.reset 2 200, Op.move_ctor 3 2,
          Op.ctor 4 300, Op.copy_assign 4 3, Op.reset 4 0, Op.move_assign 4 3,
          Op.release 4]).bind (fun m => m.use_count 4) = some 0 := by
  refine ⟨?_, ?_, ?_, ?_, ?_, ?_, ?_, ?_⟩ <;> decide

/-- C9, the failing input: two objects share one resource and the first calls
`release()`.  The first is empty and reports 0, and one live object holds the resource,
but that object still reports 2.  When it is destroyed in turn the counter stays at 1:
neither the resource nor the counter is deleted. -/
theorem release_leaves_stale_count :
    ∃ m : Mem, execAll Mem.init [Op.ctor 1 100, Op.copy_ctor 2 1, Op.release 1] = some m ∧
      m.use_count 1 = some 0 ∧
      m.sharers 100 = 1 ∧
      m.use_count 2 = some 2 ∧
      ∃ m1 : Mem, exec m (Op.dtor 2) = some m1 ∧
        m1.sharers 100 = 0 ∧ m1.heap.cells = [some 1] ∧ m1.heap.deleted = [] := by
  refine ⟨_, rfl, ?_, ?_, ?_, _, rfl, ?_, ?_, ?_⟩ <;> decide

end Shared_ptr
